import Mathlib

/-!
Shallow embedding of the VLSM subnet allocator in `find_subnet_v21.py`
(class `IPV4_SUBNET` and its module-level helpers), together with
theorems checking the natural-language specification against it.

Modelling conventions:
* Python strings are modelled as `List Char`; `str.split(sep)` with a
  one-character separator is `splitOnChar`, `str.strip()` is `stripChars`,
  and the builtin `int(...)` parser is `pyInt` (optional sign followed by
  decimal digits after stripping whitespace; numeric-literal underscores,
  which never arise in the inputs treated here, are not modelled).
* Python exceptions are modelled with `Except PyErr`; a function that
  cannot raise is given a plain total type.
* IPv4 addresses are modelled by their 32-bit numeric value (a `Nat`).
  The `ipaddress` library calls used by the code are modelled numerically:
  `IPv4Network(a/m, strict=False).network_address` clears the low `32-m`
  bits, `.broadcast_address` is `network + 2^(32-m) - 1`, `.subnets()`
  yields the two halves at mask length `m+1` (lower half first), and
  `.hosts()` is the range `network+1 .. broadcast-1` for mask length
  <= 30, both addresses for a /31 and the single address for a /32
  (CPython >= 3.8 semantics, required by this code's use of
  `list[dict]` annotations).
* Recursions that Python bounds by the data (tree depth, subtree size)
  are given explicit fuel arguments, always called with fuel large
  enough for the recursion to run to completion on the actual data.
-/

/-- Python exception kinds raised by the modelled code paths. -/
inductive PyErr where
  | valueError
  | typeError
  | attributeError
deriving DecidableEq, Repr

/-- Model of `str.split(c)` for a single-character separator `c`:
`n` occurrences of `c` yield `n+1` (possibly empty) parts. -/
def splitOnChar (c : Char) : List Char → List (List Char)
  | [] => [[]]
  | x :: xs =>
    if x = c then [] :: splitOnChar c xs
    else
      match splitOnChar c xs with
      | [] => [[x]]
      | p :: ps => (x :: p) :: ps

/-- Model of `str.strip()`: drop whitespace from both ends. -/
def stripChars (l : List Char) : List Char :=
  ((l.dropWhile Char.isWhitespace).reverse.dropWhile Char.isWhitespace).reverse

/-- All characters are decimal digits, and there is at least one. -/
def isDigits (l : List Char) : Bool :=
  !l.isEmpty && l.all Char.isDigit

/-- Value of a list of decimal digit characters. -/
def digitsVal (l : List Char) : Nat :=
  l.foldl (fun a c => a * 10 + (c.toNat - 48)) 0

/-- Model of Python's `int(s)` on a string: strip whitespace, then an
optional sign followed by at least one decimal digit; anything else
raises `ValueError`. -/
def pyInt (s : List Char) : Except PyErr Int :=
  let t := stripChars s
  match t with
  | '+' :: ds => if isDigits ds then .ok (digitsVal ds) else .error .valueError
  | '-' :: ds => if isDigits ds then .ok (-(digitsVal ds : Int)) else .error .valueError
  | ds => if isDigits ds then .ok (digitsVal ds) else .error .valueError

/-- The per-octet loop of `IPV4_SUBNET._validate_ip`:
`for byte in ip_bytes: if int(byte) < 0 or int(byte) > 255: return (False, None, None)`.
Returns `false` at the first out-of-range octet; a non-numeric octet
raises `ValueError` (propagated from `int`). -/
def checkOctets : List (List Char) → Except PyErr Bool
  | [] => .ok true
  | b :: rest =>
    match pyInt b with
    | .error e => .error e
    | .ok v => if v < 0 ∨ 255 < v then .ok false else checkOctets rest

/-- Model of `IPV4_SUBNET._validate_ip`. The normalized address string
`'.'.join(ip_bytes)` is represented by the list of its (stripped) octet
components. The `isinstance(ip, str)` guard is subsumed by the input
type. -/
def validate_ip (ip : List Char) :
    Except PyErr (Bool × Option (List (List Char)) × Option Int) :=
  if '/' ∈ ip then
    let tmp := splitOnChar '/' ip
    let ip_bytes := (splitOnChar '.' (tmp.headD [])).map stripChars
    if ip_bytes.length ≠ 4 then .ok (false, none, none)
    else
      match checkOctets ip_bytes with
      | .error e => .error e
      | .ok false => .ok (false, none, none)
      | .ok true =>
        match pyInt (stripChars (tmp.getD 1 [])) with
        | .error e => .error e
        | .ok masklen =>
          if masklen ≤ 0 ∨ 32 ≤ masklen then .ok (false, none, none)
          else .ok (true, some ip_bytes, some masklen)
  else .ok (false, none, none)

deriving instance DecidableEq for Except

/-- `ROOT` sentinel parent marker from the Python module. -/
def ROOT : Int := -1

/-- Size in addresses of a block with mask length `p` (for `p ≤ 32`). -/
def blockSize (p : Nat) : Nat := 2 ^ (32 - p)

/-- `IPv4Network(ip/p, strict=False).network_address`: clear the host bits. -/
def netAlign (ip p : Nat) : Nat := ip / blockSize p * blockSize p

/-- The record built by `_subnet_details` for a network object whose
network address is `net` and whose mask length is `p` (the binary
string renderings, which no consumer of this model reads, are omitted).
`usable_hosts` is `len(list(subnet.hosts()))`, `first_host`/`last_host`
are the first and last elements of that list: the range
`net+1 .. broadcast-1` for `p ≤ 30`, both addresses of a /31, the
single address of a /32. -/
structure Details where
  subnet_id : Nat
  usable_hosts : Nat
  subnetmask : Nat
  broadcast_addr : Nat
  first_host : Nat
  last_host : Nat
deriving DecidableEq, Repr, Inhabited

/-- Model of `_subnet_details` (numeric part). -/
def subnet_details (net p : Nat) : Details :=
  let broadcast := net + blockSize p - 1
  if p ≤ 30 then
    { subnet_id := net
      usable_hosts := blockSize p - 2
      subnetmask := 2 ^ 32 - blockSize p
      broadcast_addr := broadcast
      first_host := net + 1
      last_host := broadcast - 1 }
  else if p = 31 then
    { subnet_id := net
      usable_hosts := 2
      subnetmask := 2 ^ 32 - blockSize p
      broadcast_addr := broadcast
      first_host := net
      last_host := net + 1 }
  else
    { subnet_id := net
      usable_hosts := 1
      subnetmask := 2 ^ 32 - blockSize p
      broadcast_addr := broadcast
      first_host := net
      last_host := net }

/-- One entry of the list returned by `_get_subnet` (the dictionary with
keys `taken`, `subnet_id`, `subnet_mask_len`, ...). -/
structure SubnetInfo where
  taken : Bool
  subnet_id : Nat
  subnet_mask_len : Nat
  subnet_mask : Nat
  usable_hosts : Nat
  first_host : Nat
  last_host : Nat
  broadcast_addr : Nat
deriving DecidableEq, Repr, Inhabited

/-- Model of `_calculate_subnets`: the two halves of `ip/masklen` at mask
length `masklen + 1`, lower half first (their network addresses). -/
def calculate_subnets (ip masklen : Nat) : List Nat :=
  let net := netAlign ip masklen
  [net, net + blockSize (masklen + 1)]

/-- Model of `_get_subnet`: empty for `masklen > 30`, otherwise the two
child subnets of `ip/masklen` with their cached details. -/
def _get_subnet (ip masklen : Nat) : List SubnetInfo :=
  if masklen > 30 then []
  else
    (calculate_subnets ip masklen).map fun child =>
      let d := subnet_details child (masklen + 1)
      { taken := false
        subnet_id := d.subnet_id
        subnet_mask_len := masklen + 1
        subnet_mask := d.subnetmask
        usable_hosts := d.usable_hosts
        first_host := d.first_host
        last_host := d.last_host
        broadcast_addr := d.broadcast_addr }

/-- One element of `self.subnets`: the dictionary
`{'parent': parent, 'info': child, 'children': [], 'taken': False}`. -/
structure Node where
  parent : Int
  info : SubnetInfo
  children : List Nat
  taken : Bool
deriving DecidableEq, Repr, Inhabited

/-- `self.subnets[i]` (always called in range in the actual runs). -/
def getN (s : List Node) (i : Nat) : Node := s.getD i default

/-- Model of `_solve_subnet`: depth-first construction of the subnet
arena.  For each child of `ip/masklen` append a node whose parent is
`parent`, then (when `masklen ≤ 31`) recurse into that child at mask
length `masklen+1`.  The recursion depth is bounded by `32 - masklen`,
made explicit here by a fuel argument (`solveFuel` always suffices). -/
def solveStep : Nat → Nat → Nat → Int → List Node → List Node
  | 0, _, _, _, acc => acc
  | Nat.succ fuel, ip, masklen, parent, acc =>
    (_get_subnet ip masklen).foldl
      (fun acc child =>
        let idx := acc.length
        let acc2 := acc ++ [{ parent := parent, info := child, children := [], taken := false }]
        if masklen ≤ 31 then solveStep fuel child.subnet_id (masklen + 1) (Int.ofNat idx) acc2
        else acc2)
      acc

/-- Fuel that lets `solveStep` run to completion from any mask length. -/
def solveFuel : Nat := 33

/-- Children of node `outer`: the second pass of `_find_children` scans
all indices for nodes whose `parent` equals `outer`. -/
def childIndices (s : List Node) (outer : Nat) : List Nat :=
  (List.range s.length).filter fun inner =>
    inner != outer && (getN s inner).parent == Int.ofNat outer

/-- Model of `_find_children`: rebuild the arena with each node's
`children` list filled in (only `children` changes). -/
def find_children (s : List Node) : List Node :=
  (List.range s.length).map fun outer =>
    { getN s outer with children := childIndices s outer }

/-- `self.subnets[i]['taken'] = True` (out-of-range writes cannot occur
in the actual runs; `List.set` leaves the list unchanged there). -/
def markTaken (s : List Node) (i : Nat) : List Node :=
  s.set i { getN s i with taken := true }

/-- Model of `_set_subnet_status_taken`: mark node `idx` and recursively
every node in its `children` subtree as taken.  Python's unbounded
recursion is modelled with fuel; `s.length` is enough fuel on the trees
this program builds (children indices strictly increase). -/
def setTakenGo : Nat → List Node → Nat → List Node
  | 0, s, _ => s
  | Nat.succ fuel, s, idx =>
    let s1 := markTaken s idx
    (getN s1 idx).children.foldl (fun acc c => setTakenGo fuel acc c) s1

/-- `_set_subnet_status_taken` entry point. -/
def set_taken (s : List Node) (idx : Nat) : List Node :=
  setTakenGo s.length s idx

/-- Indices visited by `_set_subnet_status_taken` starting at `idx`, with
the same fuel discipline: `idx` itself plus the subtrees of its children. -/
def reachSet : Nat → List Node → Nat → List Nat
  | 0, _, _ => []
  | Nat.succ fuel, s, idx =>
    idx :: (getN s idx).children.foldl (fun acc c => acc ++ reachSet fuel s c) []

/-- The subtree of node `a` in arena `s` (as visited by the claim pass). -/
def subtreeReach (s : List Node) (a : Nat) : List Nat :=
  reachSet s.length s a

/-- The scan `for idx, subnet in enumerate(self.subnets)` of
`_match_subnets`: first index `≥ i` whose node is unclaimed with exactly
`target` usable hosts; fuel counts the remaining indices. -/
def matchScan (s : List Node) (target : Nat) : Nat → Nat → Option Nat
  | 0, _ => none
  | Nat.succ fuel, i =>
    if i < s.length then
      if (getN s i).taken = false ∧ (getN s i).info.usable_hosts = target then some i
      else matchScan s target fuel (i + 1)
    else none

/-- First unclaimed node with exactly `target` usable hosts. -/
def match_one (s : List Node) (target : Nat) : Option Nat :=
  matchScan s target s.length 0

/-- The width loop `for host_bits in range(max_host_bits, 32 - masklen)`:
try each width in order, selecting the first that yields a match. -/
def matchWidths (s : List Node) : List Nat → Option Nat
  | [] => none
  | w :: ws =>
    match match_one s (2 ^ w - 2) with
    | some idx => some idx
    | none => matchWidths s ws

/-- One iteration of the outer requirement loop of `_match_subnets` for
the pair `(hosts, max_host_bits)`: on a match, record the subnet (by its
arena index) and claim its subtree; otherwise record `none`. -/
def match_step (masklen : Nat) (s : List Node) (p : Nat × Nat) :
    List Node × (Nat × Option Nat) :=
  match matchWidths s (List.range' p.2 ((32 - masklen) - p.2)) with
  | some idx => (set_taken s idx, (p.1, some idx))
  | none => (s, (p.1, none))

/-- Model of `_match_subnets` driven by the zipped requirement/width
pairs; returns the final arena and `self.matched_subnets`. -/
def match_subnets (masklen : Nat) (pairs : List (Nat × Nat)) (s : List Node) :
    List Node × List (Nat × Option Nat) :=
  pairs.foldl
    (fun st p =>
      let r := match_step masklen st.1 p
      (r.1, st.2 ++ [r.2]))
    (s, [])

/-- Result record of `_get_max_host`. -/
structure MaxHost where
  max_hosts : Nat
  host_bits : Nat
deriving DecidableEq, Repr

/-- The loop `for host_bit in range(1,31)` of `_get_max_host`, with the
iteration count made explicit: `get_max_host_loop f n b` runs the body
for `host_bit = b, b+1, ...` for at most `f` iterations (the entry point
uses `f = 30`, `b = 1`, exactly `range(1, 31)`), returning `none` when
the iterations are exhausted. -/
def get_max_host_loop : Nat → Nat → Nat → Option MaxHost
  | 0, _, _ => none
  | Nat.succ fuel, n, b =>
    let left := 2 ^ b - 2
    let right := 2 ^ (b + 1) - 2
    if left = n then some ⟨left, b⟩
    else if left < n ∧ right > n then some ⟨right, b + 1⟩
    else get_max_host_loop fuel n (b + 1)

/-- Model of `IPV4_SUBNET._get_max_host` (requirement sizing).  Host
counts are `Nat`: the spec's inputs are non-negative integers, and a
negative Python int would make every branch test false, i.e. behave as
the too-large case. -/
def get_max_host (n : Nat) : Option MaxHost :=
  get_max_host_loop 30 n 1

/-- Stable insertion into a descending list (equal elements keep their
original relative order). -/
def insertDesc (x : Nat) : List Nat → List Nat
  | [] => [x]
  | y :: ys => if x ≤ y then y :: insertDesc x ys else x :: y :: ys

/-- Model of `sorted(hosts_required, reverse=True)`: Python's sort is a
stable descending sort, whose output this stable insertion sort
reproduces exactly. -/
def sortedHosts (hosts_required : List Nat) : List Nat :=
  hosts_required.foldl (fun acc x => insertDesc x acc) []

/-- `self.hosts_sorted`: sized maximum-host values of the requirements
that `_get_max_host` could size, in order (unsizable ones are skipped). -/
def sizedMax (hosts : List Nat) : List Nat :=
  hosts.filterMap fun n => (get_max_host n).map (·.max_hosts)

/-- `self.corresponding_host_bits`: host-bit widths of the sizable
requirements, in order (unsizable ones are skipped). -/
def sizedBits (hosts : List Nat) : List Nat :=
  hosts.filterMap fun n => (get_max_host n).map (·.host_bits)

/-- Bitwise integer square root: greatest `r` with `r^2 ≤ n`, exact for
every `n < 2^34`.  This models Python's `int(math.sqrt(n))`, which
equals the integer square root for all `n < 2^34` (the double
square root of such `n` cannot round across an integer); for larger `n`
both sides exceed 30 wherever `_pre_handle_ip` consults them, making the
two functions interchangeable in it. -/
def isqrtGo (n : Nat) : Nat → Nat → Nat
  | 0, r => r
  | Nat.succ k, r =>
    let r2 := r + 2 ^ k
    if r2 * r2 ≤ n then isqrtGo n k r2 else isqrtGo n k r

/-- Integer square root entry point (17 bits cover `n < 2^34`). -/
def isqrt (n : Nat) : Nat := isqrtGo n 17 0

/-- `sum(hosts)`. -/
def hostsSum (hosts : List Nat) : Nat := hosts.foldl (· + ·) 0

/-- Model of `_pre_handle_ip` on the valid path (integer `masklen`):
raise the effective mask length to `32 - (isqrt(sum(hosts)) + 2)` when
that is larger, to avoid building subnets smaller than anything the
requirements could need. -/
def preHandle (masklen : Nat) (hosts : List Nat) : Nat :=
  let host_bits := isqrt (hostsSum hosts) + 2
  if host_bits < 32 - masklen then 32 - host_bits else masklen

/-- Model of `_pre_handle_ip` exactly as called from `__init__`, where
`masklen` is the third component of `_validate_ip`'s result and is
`None` on a failed validation: `32 - None` raises `TypeError`. -/
def pre_handle_ip (masklen : Option Int) (hosts : List Nat) : Except PyErr Int :=
  let host_bits : Int := isqrt (hostsSum hosts) + 2
  match masklen with
  | none => .error .typeError
  | some m => .ok (if host_bits < 32 - m then 32 - host_bits else m)

/-- Outcome of one allocation run: the final arena (`self.subnets`) and
`self.matched_subnets`, with matched subnets recorded by arena index. -/
structure RunResult where
  subnets : List Node
  matched : List (Nat × Option Nat)
deriving DecidableEq, Repr

/-- The `__init__` tail shared by every run: build the arena from
`ip/masklen` (`_solve_subnet`), link children (`_find_children`), then
match (`_match_subnets`) against the zipped requirement/width pairs. -/
def runCore (ip masklen : Nat) (pairs : List (Nat × Nat)) : RunResult :=
  let t := find_children (solveStep solveFuel ip masklen ROOT [])
  let r := match_subnets masklen pairs t
  ⟨r.1, r.2⟩

/-- Model of a whole `IPV4_SUBNET(ip, hosts_required)` run on an already
validated base network `ip/masklen` (the numeric address and mask length
produced by `_validate_ip`): sort the requirements descending, size
them, apply the pre-sizing adjustment, build and match. -/
def runAlloc (ip masklen : Nat) (hosts_required : List Nat) : RunResult :=
  let hosts := sortedHosts hosts_required
  let bits := sizedBits hosts
  runCore ip (preHandle masklen hosts) (hosts.zip bits)

/-- Modelled from the spec: the same allocation with the pre-sizing
adjustment omitted ("an implementation may omit it"), building the full
tree from the original mask length.  This is the comparison point for
the refinement claim about `_pre_handle_ip`; everything else is
identical to `runAlloc`. -/
def runAllocNoPresize (ip masklen : Nat) (hosts_required : List Nat) : RunResult :=
  let hosts := sortedHosts hosts_required
  let bits := sizedBits hosts
  runCore ip masklen (hosts.zip bits)

/-- Model of `ipaddress`'s per-octet string parser (`_parse_octet`): only
plain decimal digit runs of length ≤ 3, no leading zeros, value ≤ 255. -/
def parse_octet (s : List Char) : Except PyErr Nat :=
  if ¬ (isDigits s = true) then .error .valueError
  else if 3 < s.length then .error .valueError
  else if 1 < s.length ∧ s.headD '0' = '0' then .error .valueError
  else if 255 < digitsVal s then .error .valueError
  else .ok (digitsVal s)

/-- Numeric value of a validated dotted address given its four octet
components (how `ipaddress` reads the string `'.'.join(ip_bytes)`). -/
def addrOfOctets (bytes : List (List Char)) : Except PyErr Nat :=
  match bytes with
  | [b0, b1, b2, b3] =>
    match parse_octet b0, parse_octet b1, parse_octet b2, parse_octet b3 with
    | .ok o0, .ok o1, .ok o2, .ok o3 =>
      .ok (o0 * 16777216 + o1 * 65536 + o2 * 256 + o3)
    | _, _, _, _ => .error .valueError
  | _ => .error .valueError

/-- Model of `IPV4_SUBNET.__init__`: size the (descending-sorted)
requirements, validate the address, run `_pre_handle_ip` on the
validation result, then either perform the allocation run or fail.
On a failed validation `masklen` is `None`, so `_pre_handle_ip` raises
`TypeError` before anything else can happen; were that line absent, the
unconditional `self._solve_subnet(self.ip_addr, ...)` after the `else`
branch would raise `AttributeError` since `self.ip_addr` was never
assigned. -/
def ipv4_subnet_init (ip : List Char) (hosts_required : List Nat) :
    Except PyErr RunResult :=
  let hosts := sortedHosts hosts_required
  let bits := sizedBits hosts
  match validate_ip ip with
  | .error e => .error e
  | .ok (isvalid, ipstr, masklenOpt) =>
    match pre_handle_ip masklenOpt hosts with
    | .error e => .error e
    | .ok masklen =>
      if isvalid then
        match addrOfOctets (ipstr.getD []) with
        | .error e => .error e
        | .ok ipv => .ok (runCore ipv masklen.toNat (hosts.zip bits))
      else .error .attributeError

/-- Observable view of the matched list: each entry as the requirement
paired with the matched subnet's `(network address, mask length)`, if
any.  This is what the result formatter exposes per row. -/
def matchedView (r : RunResult) : List (Nat × Option (Nat × Nat)) :=
  r.matched.map fun e =>
    (e.1, e.2.map fun i =>
      ((getN r.subnets i).info.subnet_id, (getN r.subnets i).info.subnet_mask_len))

/-- Arena indices of the matched subnets, in match order. -/
def matchedIdxs (r : RunResult) : List Nat :=
  r.matched.filterMap (·.2)

/-- The closed address intervals `[network, broadcast]` of two subnets
intersect. -/
def intervalsIntersect (a b : SubnetInfo) : Bool :=
  a.subnet_id ≤ b.broadcast_addr && b.subnet_id ≤ a.broadcast_addr

/-- Every pair drawn from the list satisfies `f`. -/
def allPairs (f : Nat → Nat → Bool) : List Nat → Bool
  | [] => true
  | x :: xs => xs.all (f x) && allPairs f xs

/-- The property asserted of a run by the spec's overlap invariant: the
matched subnets are pairwise non-overlapping in address range and none
is a descendant of another. -/
def matchedPairwiseOk (r : RunResult) : Bool :=
  allPairs
    (fun a b =>
      !intervalsIntersect (getN r.subnets a).info (getN r.subnets b).info
        && !(decide (b ∈ subtreeReach r.subnets a))
        && !(decide (a ∈ subtreeReach r.subnets b)))
    (matchedIdxs r)

/-- Usable-host count that `_subnet_details` caches for a subnet of mask
length `m` as it occurs in the arena (`m ≤ 31` there). -/
def usableOf (m : Nat) : Nat := if m ≤ 30 then 2 ^ (32 - m) - 2 else 2

/-- Smallest `b` (searched upward from `b0` for `f` steps) with
`n ≤ 2^b - 2`; used to state what `_get_max_host` computes. -/
def bitsForGo : Nat → Nat → Nat → Nat
  | 0, _, b => b
  | Nat.succ f, n, b => if n ≤ 2 ^ b - 2 then b else bitsForGo f n (b + 1)

/-- Smallest `b ≥ 1` with `n ≤ 2^b - 2` (meaningful for `n ≤ 2^32 - 2`). -/
def bitsFor (n : Nat) : Nat := bitsForGo 31 n 1

/-- Two arenas agree on everything except the `taken` flags. -/
def sameStruct (s t : List Node) : Prop :=
  s.length = t.length ∧
  ∀ i, (getN s i).parent = (getN t i).parent ∧
    (getN s i).info = (getN t i).info ∧
    (getN s i).children = (getN t i).children

/-- Every `children` entry points forward and into the arena. -/
def ChildrenWF (s : List Node) : Prop :=
  ∀ p c, c ∈ (getN s p).children → p < c ∧ c < s.length

/-- The claimed flags are closed downward along `children` edges. -/
def DownClosed (s : List Node) : Prop :=
  ∀ p c, c ∈ (getN s p).children → (getN s p).taken = true → (getN s c).taken = true

/-- Structural facts about the arena as `_solve_subnet` builds it,
relative to the starting mask length `m0`: parent pointers are `ROOT` or
an earlier index, a parent is one mask-length step above its child,
`ROOT` nodes sit at `m0 + 1`, the cached `usable_hosts` agrees with the
node's mask length, mask lengths stay `≤ 31`, and nothing is claimed. -/
def BuildWF (m0 : Nat) (l : List Node) : Prop :=
  ∀ i, i < l.length →
    ((getN l i).parent = ROOT → (getN l i).info.subnet_mask_len = m0 + 1) ∧
    (∀ p : Nat, (getN l i).parent = Int.ofNat p →
      p < i ∧ p < l.length ∧
      (getN l p).info.subnet_mask_len + 1 = (getN l i).info.subnet_mask_len) ∧
    ((getN l i).parent = ROOT ∨ ∃ p : Nat, (getN l i).parent = Int.ofNat p) ∧
    (getN l i).info.usable_hosts = usableOf (getN l i).info.subnet_mask_len ∧
    (getN l i).info.subnet_mask_len ≤ 31 ∧
    (getN l i).taken = false

/-- Facts about the linked arena `t` built from `ip/m` that the matcher
invariants consume. -/
def TreeWF (m : Nat) (t : List Node) : Prop :=
  ChildrenWF t ∧
  (∀ i, i < t.length →
    ((getN t i).parent = ROOT → (getN t i).info.subnet_mask_len = m + 1) ∧
    (∀ p : Nat, (getN t i).parent = Int.ofNat p →
      p < i ∧ p < t.length ∧
      (getN t p).info.subnet_mask_len + 1 = (getN t i).info.subnet_mask_len ∧
      i ∈ (getN t p).children) ∧
    ((getN t i).parent = ROOT ∨ ∃ p : Nat, (getN t i).parent = Int.ofNat p) ∧
    (getN t i).info.usable_hosts = usableOf (getN t i).info.subnet_mask_len ∧
    (getN t i).info.subnet_mask_len ≤ 31 ∧
    (getN t i).taken = false)

/-- Invariant carried through the requirement loop of `_match_subnets`
over the linked arena `t`: the arena differs from `t` only in claimed
flags, claiming is closed downward, every recorded match is in range
with its whole subtree claimed and sits at mask length ≤ 30, and no
later match lands inside an earlier match's subtree. -/
def MatchInv (t : List Node) (st : List Node × List (Nat × Option Nat)) : Prop :=
  sameStruct st.1 t ∧ DownClosed st.1 ∧
  (∀ e ∈ st.2, ∀ a : Nat, e.2 = some a →
    a < t.length ∧
    (∀ x ∈ reachSet t.length t a, (getN st.1 x).taken = true) ∧
    (getN t a).info.subnet_mask_len ≤ 30) ∧
  (∀ k l : Nat, ∀ h1 h2 a b : Nat, k < l →
    st.2[k]? = some (h1, some a) → st.2[l]? = some (h2, some b) →
    b ∉ reachSet t.length t a)

/-! ### Arithmetic helpers -/

theorem two_le_two_pow {b : Nat} (hb : 1 ≤ b) : 2 ≤ 2 ^ b := by
  calc 2 = 2 ^ 1 := rfl
  _ ≤ 2 ^ b := Nat.pow_le_pow_right (by norm_num) hb

theorem two_pow_sub_two_lt {b k : Nat} (hb : 1 ≤ b) (hbk : b < k) :
    2 ^ b - 2 < 2 ^ k - 2 := by
  have h1 : 2 ^ b < 2 ^ k := Nat.pow_lt_pow_right (by norm_num) hbk
  have h2 : 2 ≤ 2 ^ b := two_le_two_pow hb
  omega

theorem two_pow_sub_two_le {b k : Nat} (hbk : b ≤ k) : 2 ^ b - 2 ≤ 2 ^ k - 2 := by
  have h1 : 2 ^ b ≤ 2 ^ k := Nat.pow_le_pow_right (by norm_num) hbk
  omega

/-! ### Requirement sizing (`_get_max_host`) -/

theorem bitsForGo_characterization (n : Nat) :
    ∀ f b, 1 ≤ b → n ≤ 2 ^ (b + f) - 2 →
      n ≤ 2 ^ bitsForGo f n b - 2 ∧ b ≤ bitsForGo f n b ∧ bitsForGo f n b ≤ b + f ∧
      ∀ k, b ≤ k → n ≤ 2 ^ k - 2 → bitsForGo f n b ≤ k := by
  intro f
  induction f with
  | zero =>
    intro b hb hn
    have he : bitsForGo 0 n b = b := rfl
    rw [he]
    refine ⟨by simpa using hn, Nat.le_refl _, by omega, ?_⟩
    intro k hk _
    exact hk
  | succ f ih =>
    intro b hb hn
    by_cases h : n ≤ 2 ^ b - 2
    · have he : bitsForGo (f + 1) n b = b := by
        simp only [bitsForGo, if_pos h]
      rw [he]
      exact ⟨h, Nat.le_refl _, by omega, fun k hk _ => hk⟩
    · have he : bitsForGo (f + 1) n b = bitsForGo f n (b + 1) := by
        simp only [bitsForGo, if_neg h]
      have hn' : n ≤ 2 ^ (b + 1 + f) - 2 := by
        have e : b + 1 + f = b + (f + 1) := by omega
        rw [e]
        exact hn
      have hih := ih (b + 1) (by omega) hn'
      rw [he]
      refine ⟨hih.1, by omega, by omega, ?_⟩
      intro k hk hkn
      have hk1 : b + 1 ≤ k := by
        rcases Nat.eq_or_lt_of_le hk with rfl | h2
        · exact absurd hkn h
        · omega
      exact hih.2.2.2 k hk1 hkn

theorem get_max_host_loop_none (n : Nat) :
    ∀ f b, 1 ≤ b → 2 ^ (b + f) - 2 ≤ n → get_max_host_loop f n b = none := by
  intro f
  induction f with
  | zero => intro b _ _; rfl
  | succ f ih =>
    intro b hb hn
    have hlt : 2 ^ b - 2 < n := by
      have := two_pow_sub_two_lt hb (show b < b + (f + 1) by omega)
      omega
    have hright : 2 ^ (b + 1) - 2 ≤ n := by
      have := two_pow_sub_two_le (show b + 1 ≤ b + (f + 1) by omega)
      omega
    have h1 : ¬ (2 ^ b - 2 = n) := by omega
    have h2 : ¬ (2 ^ b - 2 < n ∧ 2 ^ (b + 1) - 2 > n) := by omega
    have he : get_max_host_loop (f + 1) n b = get_max_host_loop f n (b + 1) := by
      simp only [get_max_host_loop, if_neg h1, if_neg h2]
    rw [he]
    refine ih (b + 1) (by omega) ?_
    have e : b + 1 + f = b + (f + 1) := by omega
    rw [e]
    exact hn

theorem get_max_host_loop_some (n : Nat) :
    ∀ f b c, 1 ≤ b → b ≤ c → 2 ^ b - 2 ≤ n → n ≤ 2 ^ c - 2 →
      (∀ k, 1 ≤ k → n ≤ 2 ^ k - 2 → c ≤ k) → n < 2 ^ (b + f) - 2 →
      get_max_host_loop f n b = some ⟨2 ^ c - 2, c⟩ := by
  intro f
  induction f with
  | zero =>
    intro b c hb hbc hlow hcn _ hup
    rw [Nat.add_zero] at hup
    omega
  | succ f ih =>
    intro b c hb hbc hlow hcn hmin hup
    by_cases h1 : 2 ^ b - 2 = n
    · have hcb : c = b := by
        have := hmin b hb (by omega)
        omega
      have he : get_max_host_loop (f + 1) n b = some ⟨2 ^ b - 2, b⟩ := by
        simp only [get_max_host_loop, if_pos h1]
      rw [he, hcb]
    · by_cases h2 : 2 ^ b - 2 < n ∧ 2 ^ (b + 1) - 2 > n
      · have hcb : c = b + 1 := by
          have hle := hmin (b + 1) (by omega) (by omega)
          have hgt : ¬ c ≤ b := by
            intro hc
            have := two_pow_sub_two_le hc
            omega
          omega
        have he : get_max_host_loop (f + 1) n b = some ⟨2 ^ (b + 1) - 2, b + 1⟩ := by
          simp only [get_max_host_loop, if_neg h1, if_pos h2]
        rw [he, hcb]
      · have hlow' : 2 ^ (b + 1) - 2 ≤ n := by omega
        have hbc' : b + 1 ≤ c := by
          rcases Nat.eq_or_lt_of_le hbc with rfl | hlt
          · omega
          · omega
        have he : get_max_host_loop (f + 1) n b = get_max_host_loop f n (b + 1) := by
          simp only [get_max_host_loop, if_neg h1, if_neg h2]
        rw [he]
        refine ih (b + 1) c (by omega) hbc' hlow' hcn hmin ?_
        have e : b + 1 + f = b + (f + 1) := by omega
        rw [e]
        exact hup

/-- C6, counterexample: at `n = 2^30 - 1` the code returns
`host_bits = 31`, outside the claimed range `[1,30]`, and at
`n = 2^31 - 2` (which the claim says is still sizable, as it only fails
for `n > 2^31 - 2`) the code returns no result. -/
theorem get_max_host_c6_cex :
    get_max_host 1073741823 = some ⟨2147483646, 31⟩ ∧
    get_max_host 2147483646 = none := by
  decide

/-- C6 (amended): for every `n < 2^31 - 2`, `_get_max_host` returns the
smallest `host_bits ≥ 1` — necessarily in `[1,31]`, with `31` itself
reached for `n ∈ [2^30 - 1, 2^31 - 3]` — such that `2^host_bits - 2 ≥ n`,
together with `max_hosts = 2^host_bits - 2` (the smallest value of that
form that is `≥ n`); it returns no result exactly when `n ≥ 2^31 - 2`. -/
theorem get_max_host_characterization (n : Nat) :
    (2 ^ 31 - 2 ≤ n → get_max_host n = none) ∧
    (n < 2 ^ 31 - 2 →
      get_max_host n = some ⟨2 ^ bitsFor n - 2, bitsFor n⟩ ∧
      1 ≤ bitsFor n ∧ bitsFor n ≤ 31 ∧ n ≤ 2 ^ bitsFor n - 2 ∧
      ∀ k, 1 ≤ k → n ≤ 2 ^ k - 2 → bitsFor n ≤ k) := by
  constructor
  · intro h
    have e : (2:Nat) ^ (1 + 30) - 2 = 2 ^ 31 - 2 := by norm_num
    exact get_max_host_loop_none n 30 1 (by omega) (by rw [e]; exact h)
  · intro h
    have hle : n ≤ 2 ^ (1 + 31) - 2 := by
      have h2 : (2:Nat) ^ 31 - 2 ≤ 2 ^ (1 + 31) - 2 := two_pow_sub_two_le (by omega)
      omega
    have hbf := bitsForGo_characterization n 31 1 (by omega) hle
    have hc31 : bitsFor n ≤ 31 := hbf.2.2.2 31 (by omega) (by omega)
    have hmin2 : ∀ k, 1 ≤ k → n ≤ 2 ^ k - 2 → bitsFor n ≤ k := hbf.2.2.2
    have hsome := get_max_host_loop_some n 30 1 (bitsFor n) (by omega) hbf.2.1
      (by norm_num) hbf.1 hmin2 ?_
    · exact ⟨hsome, hbf.2.1, hc31, hbf.1, hmin2⟩
    · have e : (1:Nat) + 30 = 31 := by norm_num
      rw [e]
      exact h

/-- C6, witness: the characterization applied at `n = 2147483700`
(returns nothing) and at `n = 5` (smallest width 3, 6 usable hosts). -/
theorem get_max_host_characterization_witness :
    get_max_host 2147483700 = none ∧
    get_max_host 5 = some ⟨2 ^ bitsFor 5 - 2, bitsFor 5⟩ := by
  exact ⟨(get_max_host_characterization 2147483700).1 (by norm_num),
    ((get_max_host_characterization 5).2 (by norm_num)).1⟩

/-! ### Subnet details (`_subnet_details`) -/

/-- C5, counterexample: on the /31 subnet `0.0.0.0/31` the details
record has `first_host = network` (not `network + 1`),
`last_host = broadcast` (not `broadcast - 1`) and `usable_hosts = 2`
(not `0`), refuting the claimed equations at prefix 31. -/
theorem subnet_details_c5_cex :
    ¬ ((subnet_details 0 31).first_host = 0 + 1 ∧
      (subnet_details 0 31).last_host = (subnet_details 0 31).broadcast_addr - 1 ∧
      (subnet_details 0 31).usable_hosts = 0) := by
  decide

/-- C5 (amended): for prefix lengths in `(0,32)`, the details record
satisfies `first_usable = network + 1`, `last_usable = broadcast - 1`
and `usable_host_count = 2^(32-prefix) - 2` when `prefix ≤ 30`; at
prefix 31 however (CPython ≥ 3.8 `hosts()` semantics) it reports both
addresses of the pair: `first_usable = network`,
`last_usable = broadcast = network + 1`, `usable_host_count = 2`. -/
theorem subnet_details_characterization (net p : Nat) (hp0 : 0 < p) (hp31 : p ≤ 31) :
    (p ≤ 30 →
      (subnet_details net p).first_host = net + 1 ∧
      (subnet_details net p).last_host = (subnet_details net p).broadcast_addr - 1 ∧
      (subnet_details net p).broadcast_addr = net + 2 ^ (32 - p) - 1 ∧
      (subnet_details net p).usable_hosts = 2 ^ (32 - p) - 2) ∧
    (p = 31 →
      (subnet_details net p).first_host = net ∧
      (subnet_details net p).last_host = net + 1 ∧
      (subnet_details net p).broadcast_addr = net + 1 ∧
      (subnet_details net p).usable_hosts = 2) := by
  constructor
  · intro hp
    have h2 : 2 ≤ 2 ^ (32 - p) := two_le_two_pow (by omega)
    refine ⟨?_, ?_, ?_, ?_⟩ <;> simp only [subnet_details, blockSize, if_pos hp]
  · intro hp
    subst hp
    refine ⟨?_, ?_, ?_, ?_⟩ <;> norm_num [subnet_details, blockSize]

/-- C5, witness: the characterization applied at `10.0.0.0/24` (usable
count `2^8 - 2`) and at a /31 (usable count 2). -/
theorem subnet_details_characterization_witness :
    (subnet_details 167772160 24).usable_hosts = 2 ^ (32 - 24) - 2 ∧
    (subnet_details 8 31).usable_hosts = 2 := by
  exact ⟨((subnet_details_characterization 167772160 24 (by norm_num) (by norm_num)).1
      (by norm_num)).2.2.2,
    ((subnet_details_characterization 8 31 (by norm_num) (by norm_num)).2 rfl).2.2.2⟩

/-! ### Address validation (`_validate_ip`, `__init__` error paths) -/

theorem splitOnChar_ne_nil (c : Char) (l : List Char) : splitOnChar c l ≠ [] := by
  induction l with
  | nil => simp [splitOnChar]
  | cons x xs ih =>
    by_cases hx : x = c
    · simp [splitOnChar, hx]
    · simp only [splitOnChar, if_neg hx]
      cases hsp : splitOnChar c xs with
      | nil => simp
      | cons p ps => simp

theorem mem_of_splitOnChar_two (c : Char) (l : List Char)
    (h : 2 ≤ (splitOnChar c l).length) : c ∈ l := by
  induction l with
  | nil => simp [splitOnChar] at h
  | cons x xs ih =>
    by_cases hx : x = c
    · rw [hx]; exact List.mem_cons_self c xs
    · refine List.mem_cons_of_mem x (ih ?_)
      rw [show splitOnChar c (x :: xs) =
          (match splitOnChar c xs with
            | [] => [[x]]
            | p :: ps => (x :: p) :: ps) from by simp [splitOnChar, hx]] at h
      cases hsp : splitOnChar c xs with
      | nil => exact absurd hsp (splitOnChar_ne_nil c xs)
      | cons p ps =>
        rw [hsp] at h
        simp only [List.length_cons] at h ⊢
        omega

/-- C10: if the input contains two or more slashes, the segment before
the first slash yields four octets that all parse into `[0,255]`, and
the segment between the first two slashes parses into `(0,32)`, then
`_validate_ip` accepts the input, ignoring everything from the second
slash on. -/
theorem validate_ip_extra_slash_ignored
    (ip t0 t1 t2 : List Char) (rest : List (List Char))
    (hsplit : splitOnChar '/' ip = t0 :: t1 :: t2 :: rest)
    (b0 b1 b2 b3 : List Char)
    (hb : (splitOnChar '.' t0).map stripChars = [b0, b1, b2, b3])
    (v0 v1 v2 v3 : Int)
    (h0 : pyInt b0 = .ok v0) (h1 : pyInt b1 = .ok v1)
    (h2 : pyInt b2 = .ok v2) (h3 : pyInt b3 = .ok v3)
    (hr0 : 0 ≤ v0 ∧ v0 ≤ 255) (hr1 : 0 ≤ v1 ∧ v1 ≤ 255)
    (hr2 : 0 ≤ v2 ∧ v2 ≤ 255) (hr3 : 0 ≤ v3 ∧ v3 ≤ 255)
    (m : Int) (hm : pyInt (stripChars t1) = .ok m) (hmr : 0 < m ∧ m < 32) :
    validate_ip ip = .ok (true, some [b0, b1, b2, b3], some m) := by
  have hmem : '/' ∈ ip := by
    refine mem_of_splitOnChar_two '/' ip ?_
    rw [hsplit]
    simp
  have hoct : checkOctets [b0, b1, b2, b3] = .ok true := by
    have hn0 : ¬ (v0 < 0 ∨ 255 < v0) := by omega
    have hn1 : ¬ (v1 < 0 ∨ 255 < v1) := by omega
    have hn2 : ¬ (v2 < 0 ∨ 255 < v2) := by omega
    have hn3 : ¬ (v3 < 0 ∨ 255 < v3) := by omega
    simp only [checkOctets, h0, h1, h2, h3, if_neg hn0, if_neg hn1, if_neg hn2, if_neg hn3]
  have hmok : ¬ (m ≤ 0 ∨ 32 ≤ m) := by omega
  simp only [validate_ip, if_pos hmem, hsplit, List.headD_cons, List.getD_cons_succ,
    List.getD_cons_zero, hb, List.length_cons, List.length_nil, hoct, hm, if_neg hmok]
  norm_num

/-- C10, witness: `"10.0.0.1/24/garbage"` is accepted with prefix 24. -/
theorem validate_ip_extra_slash_ignored_witness :
    validate_ip ("10.0.0.1/24/garbage".toList) =
      .ok (true, some [['1','0'],['0'],['0'],['1']], some 24) := by
  refine validate_ip_extra_slash_ignored _ (['1','0','.','0','.','0','.','1'])
    (['2','4']) (['g','a','r','b','a','g','e']) [] (by decide)
    (['1','0']) (['0']) (['0']) (['1']) (by decide)
    10 0 0 1 (by decide) (by decide) (by decide) (by decide)
    (by omega) (by omega) (by omega) (by omega)
    24 (by decide) (by omega)

/-- C3: on `"10.0.0.x/24"`-style input — four dot-separated components
with a slash present, one component non-numeric — `_validate_ip` raises
`ValueError` out of `int(byte)` instead of returning `valid=false`
(likewise for a non-numeric prefix, e.g. `"10.0.0.1/ab"`). -/
theorem validate_ip_raises_on_nonnumeric :
    validate_ip ("10.0.0.x/24".toList) = .error .valueError ∧
    validate_ip ("10.0.0.1/ab".toList) = .error .valueError :=
  ⟨by decide, by decide⟩

/-- C4: on the well-formed but invalid base network `"10.0.0.1/33"`,
`_validate_ip` returns `(False, None, None)` and `__init__` then calls
`_pre_handle_ip(ip, None, hosts)`, whose `32 - masklen` raises
`TypeError`: the run dies with an unrelated error instead of reporting a
validation failure, though no subnet tree is built and no matching
occurs. -/
theorem init_typeerror_on_invalid :
    ipv4_subnet_init ("10.0.0.1/33".toList) [2] = .error .typeError := by
  decide

/-! ### Requirement bookkeeping through the matcher -/

theorem match_step_fst (m : Nat) (s : List Node) (p : Nat × Nat) :
    (match_step m s p).2.1 = p.1 := by
  unfold match_step
  cases matchWidths s (List.range' p.2 ((32 - m) - p.2)) <;> rfl

theorem match_subnets_foldl_map_fst (m : Nat) :
    ∀ (ps : List (Nat × Nat)) (s : List Node) (acc : List (Nat × Option Nat)),
      ((ps.foldl
          (fun st p =>
            let r := match_step m st.1 p
            (r.1, st.2 ++ [r.2]))
          (s, acc)).2).map Prod.fst = acc.map Prod.fst ++ ps.map Prod.fst := by
  intro ps
  induction ps with
  | nil => intro s acc; simp
  | cons p ps ih =>
    intro s acc
    simp only [List.foldl_cons]
    rw [ih]
    simp [match_step_fst]

theorem match_subnets_map_fst (m : Nat) (ps : List (Nat × Nat)) (s : List Node) :
    (match_subnets m ps s).2.map Prod.fst = ps.map Prod.fst := by
  unfold match_subnets
  rw [match_subnets_foldl_map_fst]
  simp

/-- C7, counterexample: from base `10.0.0.0/28` with requirements
`[1,1,1]`, the run with the pre-sizing adjustment (effective /29 tree)
leaves the third requirement unmatched, while the run without it
(full /28 tree) matches it to `10.0.0.8/30`: the adjustment changes the
observable results. -/
theorem presize_changes_results_cex :
    matchedView (runAlloc 167772160 28 [1, 1, 1]) ≠
      matchedView (runAllocNoPresize 167772160 28 [1, 1, 1]) := by
  decide

/-- C7 (amended): the two allocations do process the same requirements
in the same order — the result rows carry identical requirement values
in identical order — but the matched-subnet outcomes can differ (the
adjusted run can report no-match where the unadjusted run matches). -/
theorem presize_preserves_requirement_order (ip m : Nat) (hr : List Nat) :
    (runAlloc ip m hr).matched.map Prod.fst =
      (runAllocNoPresize ip m hr).matched.map Prod.fst := by
  simp [runAlloc, runAllocNoPresize, runCore, match_subnets_map_fst]

/-! ### Unsizable requirements and the zip misalignment (`__init__`) -/

theorem mem_insertDesc {x y : Nat} : ∀ {l : List Nat}, y ∈ insertDesc x l ↔ y = x ∨ y ∈ l := by
  intro l
  induction l with
  | nil => simp [insertDesc]
  | cons z zs ih =>
    by_cases h : x ≤ z
    · have he : insertDesc x (z :: zs) = z :: insertDesc x zs := by
        simp [insertDesc, h]
      rw [he]
      simp only [List.mem_cons, ih]
      tauto
    · have he : insertDesc x (z :: zs) = x :: z :: zs := by
        simp [insertDesc, h]
      rw [he]
      simp only [List.mem_cons]

theorem mem_sortedFold {y : Nat} :
    ∀ (l : List Nat) (acc : List Nat),
      (y ∈ l.foldl (fun a x => insertDesc x a) acc ↔ y ∈ acc ∨ y ∈ l) := by
  intro l
  induction l with
  | nil => intro acc; simp
  | cons x xs ih =>
    intro acc
    simp only [List.foldl_cons, ih, mem_insertDesc, List.mem_cons]
    tauto

theorem mem_sortedHosts {hr : List Nat} {y : Nat} : y ∈ sortedHosts hr ↔ y ∈ hr := by
  unfold sortedHosts
  rw [mem_sortedFold]
  simp

theorem sizedBits_eq_map {hosts : List Nat}
    (h : ∀ n ∈ hosts, (get_max_host n).isSome = true) :
    sizedBits hosts =
      hosts.map (fun n => ((get_max_host n).map MaxHost.host_bits).getD 0) := by
  induction hosts with
  | nil => rfl
  | cons n rest ih =>
    have hn : (get_max_host n).isSome = true := h n (List.mem_cons_self n rest)
    rcases Option.isSome_iff_exists.mp hn with ⟨v, hv⟩
    have hrest := ih fun x hx => h x (List.mem_cons_of_mem n hx)
    rw [show sizedBits (n :: rest) = v.host_bits :: sizedBits rest from by
      simp [sizedBits, List.filterMap_cons, hv]]
    rw [hrest]
    simp [hv]

/-- C2, counterexample: with requirements `[2147483646, 5]` on
`10.0.0.0/28`, the unsizable requirement `2147483646` is *not* excluded
from matching — the zip of the full sorted list `[2147483646, 5]` with
the one-element width list pairs it with requirement 5's width, so it is
matched to the 6-usable-host subnet at index 0 — and the sizable
requirement 5 receives no result entry at all. -/
theorem unsizable_zip_cex :
    sortedHosts [2147483646, 5] = [2147483646, 5] ∧
    get_max_host 2147483646 = none ∧
    (runAlloc 167772160 28 [2147483646, 5]).matched = [(2147483646, some 0)] ∧
    (getN (runAlloc 167772160 28 [2147483646, 5]).subnets 0).info.usable_hosts = 6 :=
  ⟨by decide, by decide, by decide, by decide⟩

/-- C2 (amended): unsizable requirements are dropped from the sized
lists but stay in the sorted requirement list, and the matcher zips the
two, so with `k` unsizable requirements the `k` smallest requirements
lose their result rows and every remaining row pairs a requirement with
a width computed from a smaller requirement; the run continues
non-fatally.  Only when every requirement is sizable does each
requirement keep its own minimal width and its own result entry, as
proved here. -/
theorem all_sizable_alignment (ip m : Nat) (hr : List Nat)
    (h : ∀ n ∈ hr, (get_max_host n).isSome = true) :
    sizedBits (sortedHosts hr) =
      (sortedHosts hr).map (fun n => ((get_max_host n).map MaxHost.host_bits).getD 0) ∧
    (runAlloc ip m hr).matched.map Prod.fst = sortedHosts hr := by
  have h2 : ∀ n ∈ sortedHosts hr, (get_max_host n).isSome = true := fun n hn =>
    h n (mem_sortedHosts.mp hn)
  have h1 := sizedBits_eq_map h2
  refine ⟨h1, ?_⟩
  simp only [runAlloc, runCore, match_subnets_map_fst]
  refine List.map_fst_zip _ _ ?_
  rw [h1, List.length_map]

/-- C2, witness: with the all-sizable requirements `[5, 2]` every
requirement keeps its own row. -/
theorem all_sizable_alignment_witness :
    (runAlloc 167772160 28 [5, 2]).matched.map Prod.fst = sortedHosts [5, 2] :=
  (all_sizable_alignment 167772160 28 [5, 2] (by decide)).2

/-! ### The subnet scan and the width loop (`_match_subnets` inner loops) -/

theorem matchScan_some_props (s : List Node) (target : Nat) :
    ∀ f i j, matchScan s target f i = some j →
      i ≤ j ∧ j < s.length ∧ (getN s j).taken = false ∧
      (getN s j).info.usable_hosts = target ∧
      ∀ q, i ≤ q → q < j →
        ¬ ((getN s q).taken = false ∧ (getN s q).info.usable_hosts = target) := by
  intro f
  induction f with
  | zero =>
    intro i j h
    exact absurd h (by simp [matchScan])
  | succ f ih =>
    intro i j h
    by_cases hi : i < s.length
    · by_cases hp : (getN s i).taken = false ∧ (getN s i).info.usable_hosts = target
      · have hij : i = j := by
          simp only [matchScan, if_pos hi, if_pos hp, Option.some.injEq] at h
          exact h
        subst hij
        exact ⟨Nat.le_refl i, hi, hp.1, hp.2, fun q hq1 hq2 _ => absurd hq1 (by omega)⟩
      · have hrec : matchScan s target f (i + 1) = some j := by
          simpa only [matchScan, if_pos hi, if_neg hp] using h
        have hih := ih (i + 1) j hrec
        refine ⟨by omega, hih.2.1, hih.2.2.1, hih.2.2.2.1, ?_⟩
        intro q hq1 hq2
        rcases Nat.eq_or_lt_of_le hq1 with rfl | hlt
        · exact hp
        · exact hih.2.2.2.2 q (by omega) hq2
    · exact absurd h (by simp [matchScan, hi])

theorem matchScan_isSome (s : List Node) (target : Nat) :
    ∀ f i,
      (∃ q, i ≤ q ∧ q < s.length ∧ q < i + f ∧ (getN s q).taken = false ∧
        (getN s q).info.usable_hosts = target) →
      (matchScan s target f i).isSome = true := by
  intro f
  induction f with
  | zero =>
    intro i ⟨q, h1, _, h3, _⟩
    omega
  | succ f ih
  =>
    intro i ⟨q, h1, h2, h3, h4, h5⟩
    have hi : i < s.length := by omega
    by_cases hp : (getN s i).taken = false ∧ (getN s i).info.usable_hosts = target
    · simp [matchScan, hi, hp]
    · have hqi : ¬ q = i := fun he => hp (he ▸ ⟨h4, h5⟩)
      simp only [matchScan, if_pos hi, if_neg hp]
      exact ih (i + 1) ⟨q, by omega, h2, by omega, h4, h5⟩

theorem match_one_some (s : List Node) (target j : Nat)
    (h : match_one s target = some j) :
    j < s.length ∧ (getN s j).taken = false ∧
    (getN s j).info.usable_hosts = target ∧
    ∀ q, q < j → ¬ ((getN s q).taken = false ∧ (getN s q).info.usable_hosts = target) := by
  have hp := matchScan_some_props s target s.length 0 j h
  exact ⟨hp.2.1, hp.2.2.1, hp.2.2.2.1, fun q hq => hp.2.2.2.2 q (Nat.zero_le q) hq⟩

theorem match_one_isSome (s : List Node) (target : Nat)
    (h : ∃ q, q < s.length ∧ (getN s q).taken = false ∧
      (getN s q).info.usable_hosts = target) :
    (match_one s target).isSome = true := by
  rcases h with ⟨q, h1, h2, h3⟩
  exact matchScan_isSome s target s.length 0 ⟨q, Nat.zero_le q, h1, by omega, h2, h3⟩

/-- C8 (amended): whenever the requirement's minimal width lies inside
the searched range (`max_host_bits < 32 - masklen`) and some unclaimed
subnet with exactly the sized usable-host target exists, the matcher
selects a subnet with exactly that usable-host count — never a strictly
larger one, since widths are tried smallest-first.  (When
`max_host_bits ≥ 32 - masklen` — a /30 base with a 2-host requirement —
the width range is empty and the requirement is reported unmatched even
though matching unclaimed subnets exist; see the counterexample.) -/
theorem smallest_sufficient_selected (m : Nat) (s : List Node) (h bits : Nat)
    (hw : bits < 32 - m)
    (hex : ∃ q, q < s.length ∧ (getN s q).taken = false ∧
      (getN s q).info.usable_hosts = 2 ^ bits - 2) :
    Option.map (fun idx => (getN s idx).info.usable_hosts) (match_step m s (h, bits)).2.2 =
      some (2 ^ bits - 2) := by
  have hsome := match_one_isSome s (2 ^ bits - 2) hex
  rcases Option.isSome_iff_exists.mp hsome with ⟨j, hj⟩
  have hrange : List.range' bits ((32 - m) - bits) =
      bits :: List.range' (bits + 1) ((32 - m) - bits - 1) := by
    have e : (32 - m) - bits = ((32 - m) - bits - 1) + 1 := by omega
    conv_lhs => rw [e]
    rw [List.range'_succ]
  have hwidths : matchWidths s (List.range' bits ((32 - m) - bits)) = some j := by
    rw [hrange]
    simp only [matchWidths, hj]
  have hstep : (match_step m s (h, bits)).2.2 = some j := by
    simp only [match_step, hwidths]
  rw [hstep]
  exact congrArg some (match_one_some s (2 ^ bits - 2) j hj).2.2.1

/-- C8, counterexample: from the /30 base `10.0.0.0/30` the single
requirement `2` (sized to target 2, minimal width 2) is reported
unmatched although both /31 nodes are unclaimed with exactly 2 usable
hosts: the width loop `range(2, 32-30)` is empty, so the claim's
"whenever an unclaimed subnet of the sized target exists, the matcher
assigns one" fails as stated. -/
theorem width_range_empty_cex :
    (runAlloc 167772160 30 [2]).matched = [(2, none)] ∧
    get_max_host 2 = some ⟨2, 2⟩ ∧
    ((runAlloc 167772160 30 [2]).subnets.any
      (fun nd => !nd.taken && nd.info.usable_hosts == 2)) = true :=
  ⟨by decide, by decide, by decide⟩

/-- C8, witness: on the freshly built /29 tree, a requirement with
minimal width 2 is matched to a subnet with exactly `2^2 - 2` usable
hosts. -/
theorem smallest_sufficient_selected_witness :
    Option.map
      (fun idx =>
        (getN (find_children (solveStep solveFuel 167772160 29 ROOT [])) idx).info.usable_hosts)
      (match_step 29 (find_children (solveStep solveFuel 167772160 29 ROOT [])) (2, 2)).2.2 =
      some (2 ^ 2 - 2) := by
  refine smallest_sufficient_selected 29 _ 2 2 (by omega) ⟨0, by decide, by decide, by decide⟩

/-! ### Arena access and structure preservation -/

theorem getN_eq_getElem? (s : List Node) (i : Nat) : getN s i = (s[i]?).getD default := by
  simp [getN, List.getD_eq_getElem?_getD]

theorem getN_default (s : List Node) (i : Nat) (h : s.length ≤ i) : getN s i = default := by
  rw [getN_eq_getElem?, List.getElem?_eq_none h]
  rfl

theorem getN_append_left (s t : List Node) (i : Nat) (h : i < s.length) :
    getN (s ++ t) i = getN s i := by
  rw [getN_eq_getElem?, getN_eq_getElem?, List.getElem?_append_left h]

theorem getN_concat_self (s : List Node) (nd : Node) : getN (s ++ [nd]) s.length = nd := by
  rw [getN_eq_getElem?, List.getElem?_concat_length]
  rfl

theorem markTaken_length (s : List Node) (i : Nat) : (markTaken s i).length = s.length :=
  List.length_set s i _

theorem getN_markTaken_ne (s : List Node) (i j : Nat) (h : i ≠ j) :
    getN (markTaken s i) j = getN s j := by
  rw [getN_eq_getElem?, getN_eq_getElem?, markTaken, List.getElem?_set_ne h]

theorem getN_markTaken_self (s : List Node) (i : Nat) (h : i < s.length) :
    getN (markTaken s i) i = { getN s i with taken := true } := by
  rw [getN_eq_getElem?, markTaken, List.getElem?_set_self h]
  rfl

theorem markTaken_oob (s : List Node) (i : Nat) (h : s.length ≤ i) :
    markTaken s i = s := by
  rw [markTaken]
  exact List.set_eq_of_length_le h

theorem getN_markTaken_struct (s : List Node) (i j : Nat) :
    (getN (markTaken s i) j).parent = (getN s j).parent ∧
    (getN (markTaken s i) j).info = (getN s j).info ∧
    (getN (markTaken s i) j).children = (getN s j).children := by
  by_cases hij : i = j
  · subst hij
    by_cases hi : i < s.length
    · rw [getN_markTaken_self s i hi]
      exact ⟨rfl, rfl, rfl⟩
    · rw [markTaken_oob s i (by omega)]
      exact ⟨rfl, rfl, rfl⟩
  · rw [getN_markTaken_ne s i j hij]
    exact ⟨rfl, rfl, rfl⟩

theorem sameStruct_refl (s : List Node) : sameStruct s s :=
  ⟨rfl, fun _ => ⟨rfl, rfl, rfl⟩⟩

theorem sameStruct_trans {a b c : List Node} (h1 : sameStruct a b) (h2 : sameStruct b c) :
    sameStruct a c := by
  refine ⟨h1.1.trans h2.1, fun i => ?_⟩
  obtain ⟨p1, i1, c1⟩ := h1.2 i
  obtain ⟨p2, i2, c2⟩ := h2.2 i
  exact ⟨p1.trans p2, i1.trans i2, c1.trans c2⟩

theorem sameStruct_markTaken (s : List Node) (i : Nat) : sameStruct (markTaken s i) s :=
  ⟨markTaken_length s i, fun j => getN_markTaken_struct s i j⟩

theorem foldl_preserve {α : Type} (P : List Node → Prop) (f : List Node → α → List Node)
    (hf : ∀ s a, P s → P (f s a)) :
    ∀ (l : List α) (s : List Node), P s → P (l.foldl f s) := by
  intro l
  induction l with
  | nil => intro s hs; exact hs
  | cons a l ih => intro s hs; exact ih (f s a) (hf s a hs)

theorem sameStruct_setTakenGo : ∀ (f : Nat) (s : List Node) (i : Nat),
    sameStruct (setTakenGo f s i) s := by
  intro f
  induction f with
  | zero => intro s i; exact sameStruct_refl s
  | succ f ih =>
    intro s i
    simp only [setTakenGo]
    refine sameStruct_trans ?_ (sameStruct_markTaken s i)
    exact foldl_preserve (fun s' => sameStruct s' (markTaken s i)) _
      (fun s' c h => sameStruct_trans (ih s' c) h) _ _ (sameStruct_refl _)

theorem setTakenGo_length (f : Nat) (s : List Node) (i : Nat) :
    (setTakenGo f s i).length = s.length :=
  (sameStruct_setTakenGo f s i).1

theorem taken_markTaken_mono (s : List Node) (i x : Nat)
    (h : (getN s x).taken = true) : (getN (markTaken s i) x).taken = true := by
  by_cases hix : i = x
  · subst hix
    by_cases hi : i < s.length
    · rw [getN_markTaken_self s i hi]
    · rw [markTaken_oob s i (by omega)]
      exact h
  · rw [getN_markTaken_ne s i x hix]
    exact h

theorem taken_setTakenGo_mono : ∀ (f : Nat) (s : List Node) (i x : Nat),
    (getN s x).taken = true → (getN (setTakenGo f s i) x).taken = true := by
  intro f
  induction f with
  | zero => intro s i x h; exact h
  | succ f ih =>
    intro s i x h
    simp only [setTakenGo]
    exact foldl_preserve (fun s' => (getN s' x).taken = true) _
      (fun s' c hc => ih s' c x hc) _ _ (taken_markTaken_mono s i x h)

/-! ### The claimed subtree (`reachSet`) -/

theorem foldl_append_congr {g g' : Nat → List Nat} :
    ∀ (cs : List Nat) (init : List Nat), (∀ c ∈ cs, g c = g' c) →
      cs.foldl (fun acc c => acc ++ g c) init = cs.foldl (fun acc c => acc ++ g' c) init := by
  intro cs
  induction cs with
  | nil => intro init _; rfl
  | cons c cs ih =>
    intro init h
    simp only [List.foldl_cons]
    rw [h c (List.mem_cons_self c cs)]
    exact ih _ fun c' hc' => h c' (List.mem_cons_of_mem c hc')

theorem mem_foldl_append {g : Nat → List Nat} :
    ∀ (cs : List Nat) (init : List Nat) (x : Nat),
      x ∈ cs.foldl (fun acc c => acc ++ g c) init ↔ x ∈ init ∨ ∃ c ∈ cs, x ∈ g c := by
  intro cs
  induction cs with
  | nil => intro init x; simp
  | cons c cs ih =>
    intro init x
    simp only [List.foldl_cons]
    rw [ih]
    simp only [List.mem_append, List.mem_cons]
    constructor
    · rintro ((h | h) | ⟨c', hc', hx⟩)
      · exact Or.inl h
      · exact Or.inr ⟨c, Or.inl rfl, h⟩
      · exact Or.inr ⟨c', Or.inr hc', hx⟩
    · rintro (h | ⟨c', (rfl | hc'), hx⟩)
      · exact Or.inl (Or.inl h)
      · exact Or.inl (Or.inr hx)
      · exact Or.inr ⟨c', hc', hx⟩

theorem reachSet_congr : ∀ (f : Nat) (s t : List Node) (i : Nat),
    sameStruct s t → reachSet f s i = reachSet f t i := by
  intro f
  induction f with
  | zero => intro s t i _; rfl
  | succ f ih =>
    intro s t i hst
    simp only [reachSet]
    rw [(hst.2 i).2.2]
    congr 1
    exact foldl_append_congr _ _ fun c _ => ih s t c hst

theorem mem_reachSet_succ (f : Nat) (s : List Node) (i x : Nat) :
    x ∈ reachSet (f + 1) s i ↔ x = i ∨ ∃ c ∈ (getN s i).children, x ∈ reachSet f s c := by
  simp only [reachSet, List.mem_cons]
  rw [mem_foldl_append]
  simp

theorem ChildrenWF_of_sameStruct {s t : List Node} (h : sameStruct s t)
    (hwf : ChildrenWF t) : ChildrenWF s := by
  intro p c hc
  rw [(h.2 p).2.2] at hc
  have h2 := hwf p c hc
  rw [h.1]
  exact h2

theorem DownClosed_of_untaken {s : List Node}
    (h : ∀ i, (getN s i).taken = false) : DownClosed s := by
  intro p c _ htk
  rw [h p] at htk
  exact absurd htk (by simp)

/-! ### Claiming a subtree marks exactly its reach set -/

theorem fold_setTakenGo_taken (f : Nat)
    (ih : ∀ (s : List Node) (i x : Nat), ChildrenWF s → i < s.length →
      x ∈ reachSet f s i → (getN (setTakenGo f s i) x).taken = true)
    (base : List Node) (x : Nat) :
    ∀ (cs : List Nat) (s0 : List Node), sameStruct s0 base → ChildrenWF base →
      (∀ c ∈ cs, c < base.length) →
      (∃ c ∈ cs, x ∈ reachSet f base c) →
      (getN (cs.foldl (fun acc c => setTakenGo f acc c) s0) x).taken = true := by
  intro cs
  induction cs with
  | nil =>
    rintro s0 _ _ _ ⟨c, hc, _⟩
    exact absurd hc (List.not_mem_nil c)
  | cons c cs ihcs =>
    rintro s0 hss hwf hrange ⟨c', hc', hx⟩
    simp only [List.foldl_cons]
    rcases List.mem_cons.mp hc' with rfl | hmem
    · refine foldl_preserve (fun s' => (getN s' x).taken = true) _
        (fun s' cc h => taken_setTakenGo_mono f s' cc x h) cs _ ?_
      have hwf0 : ChildrenWF s0 := ChildrenWF_of_sameStruct hss hwf
      have hlen : c' < s0.length := by
        rw [hss.1]
        exact hrange c' (List.mem_cons_self c' cs)
      have hreach : x ∈ reachSet f s0 c' := by
        rw [reachSet_congr f s0 base c' hss]
        exact hx
      exact ih s0 c' x hwf0 hlen hreach
    · exact ihcs (setTakenGo f s0 c)
        (sameStruct_trans (sameStruct_setTakenGo f s0 c) hss) hwf
        (fun c2 h2 => hrange c2 (List.mem_cons_of_mem c h2)) ⟨c', hmem, hx⟩

theorem setTakenGo_taken_of_reach : ∀ (f : Nat) (s : List Node) (i x : Nat),
    ChildrenWF s → i < s.length → x ∈ reachSet f s i →
    (getN (setTakenGo f s i) x).taken = true := by
  intro f
  induction f with
  | zero =>
    intro s i x _ _ hx
    exact absurd hx (List.not_mem_nil x)
  | succ f ih =>
    intro s i x hwf hi hx
    rw [mem_reachSet_succ] at hx
    have hcs : (getN (markTaken s i) i).children = (getN s i).children :=
      ((sameStruct_markTaken s i).2 i).2.2
    simp only [setTakenGo]
    rcases hx with rfl | ⟨c, hc, hxc⟩
    · refine foldl_preserve (fun s' => (getN s' x).taken = true) _
        (fun s' cc h => taken_setTakenGo_mono f s' cc x h) _ _ ?_
      show (getN (markTaken s x) x).taken = true
      rw [getN_markTaken_self s x hi]
    · refine fold_setTakenGo_taken f ih s x ((getN (markTaken s i) i).children)
        (markTaken s i) (sameStruct_markTaken s i) hwf ?_ ?_
      · intro c2 h2
        rw [hcs] at h2
        exact (hwf i c2 h2).2
      · refine ⟨c, ?_, hxc⟩
        rw [hcs]
        exact hc

theorem taken_markTaken_src (s : List Node) (i x : Nat)
    (h : (getN (markTaken s i) x).taken = true) :
    (getN s x).taken = true ∨ x = i := by
  by_cases hix : i = x
  · exact Or.inr hix.symm
  · rw [getN_markTaken_ne s i x hix] at h
    exact Or.inl h

theorem fold_setTakenGo_src (f : Nat)
    (ih : ∀ (s : List Node) (i x : Nat), (getN (setTakenGo f s i) x).taken = true →
      (getN s x).taken = true ∨ x ∈ reachSet f s i)
    (base : List Node) (x : Nat) :
    ∀ (cs : List Nat) (s0 : List Node), sameStruct s0 base →
      (getN (cs.foldl (fun acc c => setTakenGo f acc c) s0) x).taken = true →
      (getN s0 x).taken = true ∨ ∃ c ∈ cs, x ∈ reachSet f base c := by
  intro cs
  induction cs with
  | nil =>
    intro s0 _ h
    exact Or.inl h
  | cons c cs ihcs =>
    intro s0 hss h
    simp only [List.foldl_cons] at h
    rcases ihcs (setTakenGo f s0 c)
        (sameStruct_trans (sameStruct_setTakenGo f s0 c) hss) h with h1 | ⟨c', hc', hx⟩
    · rcases ih s0 c x h1 with h2 | h2
      · exact Or.inl h2
      · refine Or.inr ⟨c, List.mem_cons_self c cs, ?_⟩
        rw [← reachSet_congr f s0 base c hss]
        exact h2
    · exact Or.inr ⟨c', List.mem_cons_of_mem c hc', hx⟩

theorem setTakenGo_taken_src : ∀ (f : Nat) (s : List Node) (i x : Nat),
    (getN (setTakenGo f s i) x).taken = true →
    (getN s x).taken = true ∨ x ∈ reachSet f s i := by
  intro f
  induction f with
  | zero =>
    intro s i x h
    exact Or.inl h
  | succ f ih =>
    intro s i x h
    simp only [setTakenGo] at h
    have hcs : (getN (markTaken s i) i).children = (getN s i).children :=
      ((sameStruct_markTaken s i).2 i).2.2
    rcases fold_setTakenGo_src f ih s x ((getN (markTaken s i) i).children)
        (markTaken s i) (sameStruct_markTaken s i) h with h1 | ⟨c, hc, hx⟩
    · rcases taken_markTaken_src s i x h1 with h2 | h2
      · exact Or.inl h2
      · refine Or.inr ?_
        rw [mem_reachSet_succ]
        exact Or.inl h2
    · refine Or.inr ?_
      rw [mem_reachSet_succ]
      rw [hcs] at hc
      exact Or.inr ⟨c, hc, hx⟩

theorem reachSet_closed (s : List Node) (hwf : ChildrenWF s) :
    ∀ (f i : Nat), i < s.length → s.length - i ≤ f →
      ∀ p, p ∈ reachSet f s i → ∀ c ∈ (getN s p).children, c ∈ reachSet f s i := by
  intro f
  induction f with
  | zero =>
    intro i hi hf
    omega
  | succ f ih =>
    intro i hi hf p hp c hc
    rw [mem_reachSet_succ] at hp ⊢
    rcases hp with rfl | ⟨c', hc', hpc'⟩
    · have hci := hwf p c hc
      refine Or.inr ⟨c, hc, ?_⟩
      cases f with
      | zero => omega
      | succ f' =>
        rw [mem_reachSet_succ]
        exact Or.inl rfl
    · have h1 := hwf i c' hc'
      exact Or.inr ⟨c', hc', ih c' h1.2 (by omega) p hpc' c hc⟩

theorem DownClosed_set_taken (s : List Node) (idx : Nat) (hwf : ChildrenWF s)
    (hi : idx < s.length) (hdc : DownClosed s) : DownClosed (set_taken s idx) := by
  intro p c hc htk
  have hss := sameStruct_setTakenGo s.length s idx
  have hc' : c ∈ (getN s p).children := by
    rw [← (hss.2 p).2.2]
    exact hc
  rcases setTakenGo_taken_src s.length s idx p htk with hp | hp
  · exact taken_setTakenGo_mono s.length s idx c (hdc p c hc' hp)
  · exact setTakenGo_taken_of_reach s.length s idx c hwf hi
      (reachSet_closed s hwf s.length idx hi (by omega) p hp c hc')

/-! ### Well-formedness of the arena built by `_solve_subnet` -/

theorem usable_subnet_details (net p : Nat) (hp31 : p ≤ 31) :
    (subnet_details net p).usable_hosts = usableOf p := by
  simp only [subnet_details, usableOf, blockSize]
  by_cases h : p ≤ 30
  · rw [if_pos h, if_pos h]
  · have h31 : p = 31 := by omega
    subst h31
    norm_num

theorem mem_get_subnet {c : SubnetInfo} {ip mlk : Nat} (h : c ∈ _get_subnet ip mlk) :
    c.subnet_mask_len = mlk + 1 ∧ c.usable_hosts = usableOf (mlk + 1) ∧ mlk ≤ 30 := by
  unfold _get_subnet at h
  by_cases h30 : mlk > 30
  · rw [if_pos h30] at h
    exact absurd h (List.not_mem_nil c)
  · rw [if_neg h30] at h
    rcases List.mem_map.mp h with ⟨net, _, rfl⟩
    exact ⟨rfl, usable_subnet_details _ (mlk + 1) (by omega), by omega⟩

theorem BuildWF_append (m0 : Nat) (acc : List Node) (nd : Node)
    (hacc : BuildWF m0 acc)
    (h1 : nd.parent = ROOT → nd.info.subnet_mask_len = m0 + 1)
    (h2 : ∀ p : Nat, nd.parent = Int.ofNat p →
      p < acc.length ∧ (getN acc p).info.subnet_mask_len + 1 = nd.info.subnet_mask_len)
    (h3 : nd.parent = ROOT ∨ ∃ p : Nat, nd.parent = Int.ofNat p)
    (h4 : nd.info.usable_hosts = usableOf nd.info.subnet_mask_len)
    (h5 : nd.info.subnet_mask_len ≤ 31)
    (h6 : nd.taken = false) :
    BuildWF m0 (acc ++ [nd]) := by
  intro i hi
  rw [List.length_append, List.length_singleton] at hi
  by_cases hilt : i < acc.length
  · rw [getN_append_left _ _ i hilt]
    have ho := hacc i hilt
    refine ⟨ho.1, ?_, ho.2.2.1, ho.2.2.2.1, ho.2.2.2.2.1, ho.2.2.2.2.2⟩
    intro p hp
    have h := ho.2.1 p hp
    rw [getN_append_left _ _ p (by omega)]
    exact ⟨h.1, by rw [List.length_append]; omega, h.2.2⟩
  · have hieq : i = acc.length := by omega
    subst hieq
    rw [getN_concat_self]
    refine ⟨h1, ?_, h3, h4, h5, h6⟩
    intro p hp
    have h := h2 p hp
    rw [getN_append_left _ _ p h.1]
    exact ⟨h.1, by rw [List.length_append]; omega, h.2⟩

theorem solveStep_wf (m0 : Nat) : ∀ (fuel ip mlk : Nat) (parent : Int) (acc : List Node),
    BuildWF m0 acc →
    (parent = ROOT → mlk = m0) →
    (∀ p : Nat, parent = Int.ofNat p →
      p < acc.length ∧ (getN acc p).info.subnet_mask_len = mlk) →
    (parent = ROOT ∨ ∃ p : Nat, parent = Int.ofNat p) →
    BuildWF m0 (solveStep fuel ip mlk parent acc) ∧
    ∃ ext, solveStep fuel ip mlk parent acc = acc ++ ext := by
  intro fuel
  induction fuel with
  | zero =>
    intro ip mlk parent acc hacc _ _ _
    exact ⟨hacc, [], (List.append_nil acc).symm⟩
  | succ fuel ih =>
    intro ip mlk parent acc hacc hp1 hp2 hp3
    have key : ∀ (cs : List SubnetInfo),
        (∀ c ∈ cs, c.subnet_mask_len = mlk + 1 ∧ c.usable_hosts = usableOf (mlk + 1) ∧
          mlk ≤ 30) →
        ∀ (acc : List Node), BuildWF m0 acc →
        (∀ p : Nat, parent = Int.ofNat p →
          p < acc.length ∧ (getN acc p).info.subnet_mask_len = mlk) →
        BuildWF m0 (cs.foldl
          (fun acc child =>
            let idx := acc.length
            let acc2 := acc ++ [{ parent := parent, info := child, children := [], taken := false }]
            if mlk ≤ 31 then solveStep fuel child.subnet_id (mlk + 1) (Int.ofNat idx) acc2
            else acc2) acc) ∧
        ∃ ext, (cs.foldl
          (fun acc child =>
            let idx := acc.length
            let acc2 := acc ++ [{ parent := parent, info := child, children := [], taken := false }]
            if mlk ≤ 31 then solveStep fuel child.subnet_id (mlk + 1) (Int.ofNat idx) acc2
            else acc2) acc) = acc ++ ext := by
      intro cs
      induction cs with
      | nil =>
        intro _ acc hacc _
        exact ⟨hacc, [], (List.append_nil acc).symm⟩
      | cons c cs ihcs =>
        intro hcs acc hacc hpar
        have hc := hcs c (List.mem_cons_self c cs)
        simp only [List.foldl_cons]
        have hnd : BuildWF m0
            (acc ++ [{ parent := parent, info := c, children := [], taken := false }]) := by
          refine BuildWF_append m0 acc _ hacc ?_ ?_ hp3 ?_ ?_ rfl
          · intro hroot
            have h0 := hp1 hroot
            have h1 := hc.1
            show c.subnet_mask_len = m0 + 1
            omega
          · intro p hp
            have h := hpar p hp
            refine ⟨h.1, ?_⟩
            show (getN acc p).info.subnet_mask_len + 1 = c.subnet_mask_len
            have h1 := hc.1
            omega
          · show c.usable_hosts = usableOf c.subnet_mask_len
            rw [hc.1]
            exact hc.2.1
          · show c.subnet_mask_len ≤ 31
            have h1 := hc.1
            have h2 := hc.2.2
            omega
        set nd : Node := { parent := parent, info := c, children := [], taken := false } with hnddef
        have hstep : BuildWF m0
            ((fun acc (child : SubnetInfo) =>
              let idx := acc.length
              let acc2 := acc ++ [{ parent := parent, info := child, children := [], taken := false }]
              if mlk ≤ 31 then solveStep fuel child.subnet_id (mlk + 1) (Int.ofNat idx) acc2
              else acc2) acc c) ∧
            ∃ ext2, ((fun acc (child : SubnetInfo) =>
              let idx := acc.length
              let acc2 := acc ++ [{ parent := parent, info := child, children := [], taken := false }]
              if mlk ≤ 31 then solveStep fuel child.subnet_id (mlk + 1) (Int.ofNat idx) acc2
              else acc2) acc c) = acc ++ ext2 := by
          simp only []
          by_cases h31 : mlk ≤ 31
          · rw [if_pos h31]
            have hres := ih c.subnet_id (mlk + 1) (Int.ofNat acc.length) (acc ++ [nd]) hnd
              (by intro hroot; exact absurd hroot (by simp [ROOT]))
              (by
                intro p hp
                have hpeq : p = acc.length := by
                  have := Int.ofNat.inj hp.symm
                  omega
                subst hpeq
                refine ⟨by rw [List.length_append, List.length_singleton]; omega, ?_⟩
                rw [getN_concat_self]
                exact hc.1)
              (Or.inr ⟨acc.length, rfl⟩)
            refine ⟨hres.1, ?_⟩
            rcases hres.2 with ⟨ext2, hext2⟩
            exact ⟨[nd] ++ ext2, by rw [hext2, List.append_assoc]⟩
          · rw [if_neg h31]
            exact ⟨hnd, [nd], rfl⟩
        obtain ⟨hstep1, ext2, hstep2⟩ := hstep
        have hres := ihcs (fun c' hc' => hcs c' (List.mem_cons_of_mem c hc'))
          _ hstep1
          (by
            intro p hp
            have h := hpar p hp
            rw [hstep2]
            refine ⟨by rw [List.length_append]; omega, ?_⟩
            rw [getN_append_left _ _ p h.1]
            exact h.2)
        rcases hres.2 with ⟨ext3, hext3⟩
        refine ⟨hres.1, ?_⟩
        rw [hext3, hstep2]
        exact ⟨ext2 ++ ext3, by rw [List.append_assoc]⟩
    have hmem : ∀ c ∈ _get_subnet ip mlk,
        c.subnet_mask_len = mlk + 1 ∧ c.usable_hosts = usableOf (mlk + 1) ∧ mlk ≤ 30 :=
      fun c hc => mem_get_subnet hc
    simpa only [solveStep] using key (_get_subnet ip mlk) hmem acc hacc hp2

/-! ### Linking children (`_find_children`) -/

theorem find_children_length (s : List Node) : (find_children s).length = s.length := by
  simp [find_children]

theorem getN_find_children (s : List Node) (i : Nat) (h : i < s.length) :
    getN (find_children s) i = { getN s i with children := childIndices s i } := by
  rw [getN_eq_getElem?]
  unfold find_children
  rw [List.getElem?_map, List.getElem?_range h]
  rfl

theorem mem_childIndices {s : List Node} {p c : Nat} :
    c ∈ childIndices s p ↔
      c < s.length ∧ c ≠ p ∧ (getN s c).parent = Int.ofNat p := by
  unfold childIndices
  rw [List.mem_filter, List.mem_range]
  simp [and_assoc]

theorem build_TreeWF (ip m : Nat) :
    TreeWF m (find_children (solveStep solveFuel ip m ROOT [])) := by
  have hnil : BuildWF m ([] : List Node) := by
    intro i hi
    exact absurd hi (by simp)
  have hb := solveStep_wf m solveFuel ip m ROOT [] hnil (fun _ => rfl)
    (fun p hp => absurd hp (by simp [ROOT]))
    (Or.inl rfl)
  have hwf := hb.1
  constructor
  · -- ChildrenWF
    intro p c hc
    by_cases hp : p < (solveStep solveFuel ip m ROOT []).length
    · rw [find_children_length]
      rw [getN_find_children _ p hp] at hc
      have hmem := mem_childIndices.mp hc
      have hcb := hwf c hmem.1
      rcases hcb.2.1 with h2
      have h3 := h2 p hmem.2.2
      exact ⟨h3.1, hmem.1⟩
    · rw [getN_default (find_children _) p (by rw [find_children_length]; omega)] at hc
      exact absurd hc (List.not_mem_nil c)
  · -- per-node facts
    intro i hi
    rw [find_children_length] at hi
    rw [getN_find_children _ i hi]
    have ho := hwf i hi
    refine ⟨ho.1, ?_, ho.2.2.1, ho.2.2.2.1, ho.2.2.2.2.1, ho.2.2.2.2.2⟩
    intro p hp
    have h2 := ho.2.1 p hp
    rw [getN_find_children _ p h2.2.1]
    refine ⟨h2.1, by rw [find_children_length]; exact h2.2.1, h2.2.2, ?_⟩
    rw [mem_childIndices]
    exact ⟨hi, by omega, hp⟩

/-! ### What a selection in the width loop implies -/

theorem matchWidths_some (s : List Node) :
    ∀ (ws : List Nat) (idx : Nat), matchWidths s ws = some idx →
      ∃ w ∈ ws, match_one s (2 ^ w - 2) = some idx := by
  intro ws
  induction ws with
  | nil =>
    intro idx h
    exact absurd h (by simp [matchWidths])
  | cons w ws ih =>
    intro idx h
    simp only [matchWidths] at h
    cases hone : match_one s (2 ^ w - 2) with
    | some j =>
      rw [hone] at h
      exact ⟨w, List.mem_cons_self w ws, by rw [hone]; exact h⟩
    | none =>
      rw [hone] at h
      rcases ih idx h with ⟨w', hw', hone'⟩
      exact ⟨w', List.mem_cons_of_mem w hw', hone'⟩

theorem mem_range'_lt {w a b : Nat} (h : w ∈ List.range' a (b - a)) : a ≤ w ∧ w < b := by
  have h2 := List.mem_range'_1.mp h
  omega

theorem pow_sub_two_eq_two {w : Nat} (h : 2 ^ w - 2 = 2) : w = 2 := by
  match w with
  | 0 => simp at h
  | 1 => simp at h
  | 2 => rfl
  | w + 3 =>
    have h8 : (8:Nat) ≤ 2 ^ (w + 3) := by
      calc (8:Nat) = 2 ^ 3 := rfl
      _ ≤ 2 ^ (w + 3) := Nat.pow_le_pow_right (by norm_num) (by omega)
    omega

/-- The central /31 argument: under the tree well-formedness facts, a
node selected by the scan for some width `w < 32 - m` cannot sit at mask
length 31 (its /30 parent would be unclaimed, equally sized and earlier
in scan order), hence sits at mask length ≤ 30. -/
theorem selected_masklen_le (t : List Node) (m : Nat) (hwf : TreeWF m t)
    (s : List Node) (hss : sameStruct s t) (hdc : DownClosed s)
    (w idx : Nat) (hwlt : w < 32 - m)
    (hone : match_one s (2 ^ w - 2) = some idx) :
    (getN t idx).info.subnet_mask_len ≤ 30 := by
  have hprops := match_one_some s (2 ^ w - 2) idx hone
  have hidxt : idx < t.length := by
    rw [← hss.1]
    exact hprops.1
  have hinfo : (getN s idx).info = (getN t idx).info := (hss.2 idx).2.1
  have hnode := hwf.2 idx hidxt
  by_cases h31 : (getN t idx).info.subnet_mask_len = 31
  · exfalso
    -- the target is the /31's usable count, 2
    have husable : (getN t idx).info.usable_hosts = 2 := by
      rw [hnode.2.2.2.1, h31]
      rfl
    have htarget : 2 ^ w - 2 = 2 := by
      rw [← hprops.2.2.1, hinfo, husable]
    have hw2 : w = 2 := pow_sub_two_eq_two htarget
    have hm29 : m ≤ 29 := by omega
    rcases hnode.2.2.1 with hroot | ⟨pr, hpr⟩
    · -- a ROOT node sits at m + 1 ≤ 30, not 31
      have := hnode.1 hroot
      omega
    · have hfacts := hnode.2.1 pr hpr
      -- the parent is a /30 with usable count 2
      have hprml : (getN t pr).info.subnet_mask_len = 30 := by omega
      have hpru : (getN t pr).info.usable_hosts = 2 := by
        rw [(hwf.2 pr hfacts.2.1).2.2.2.1, hprml]
        rfl
      -- the parent is unclaimed: were it claimed, the selected child
      -- would be claimed too (downward closure along children)
      have hchild : idx ∈ (getN s pr).children := by
        rw [(hss.2 pr).2.2]
        exact hfacts.2.2.2
      have hpruntaken : (getN s pr).taken = false := by
        cases htk : (getN s pr).taken with
        | false => rfl
        | true =>
          have := hdc pr idx hchild htk
          rw [hprops.2.1] at this
          exact absurd this (by simp)
      -- but then the scan would have stopped at the parent first
      have := hprops.2.2.2 pr hfacts.1
      refine this ⟨hpruntaken, ?_⟩
      rw [(hss.2 pr).2.1, hpru, htarget]
  · have := hnode.2.2.2.2.1
    omega

/-! ### The matcher invariant -/

theorem MatchInv_init (t : List Node) (m : Nat) (hwf : TreeWF m t) :
    MatchInv t (t, []) := by
  refine ⟨sameStruct_refl t, ?_, ?_, ?_⟩
  · refine DownClosed_of_untaken fun i => ?_
    by_cases hi : i < t.length
    · exact (hwf.2 i hi).2.2.2.2.2
    · rw [getN_default t i (by omega)]
      rfl
  · intro e he
    exact absurd he (List.not_mem_nil e)
  · intro k l h1 h2 a b _ hk _
    simp at hk

theorem MatchInv_step (t : List Node) (m : Nat) (hwf : TreeWF m t)
    (st : List Node × List (Nat × Option Nat)) (hinv : MatchInv t st) (p : Nat × Nat) :
    MatchInv t ((match_step m st.1 p).1, st.2 ++ [(match_step m st.1 p).2]) := by
  obtain ⟨hss, hdc, hent, hpair⟩ := hinv
  cases hmw : matchWidths st.1 (List.range' p.2 ((32 - m) - p.2)) with
  | none =>
    have h1 : (match_step m st.1 p).1 = st.1 := by
      simp [match_step, hmw]
    have h2 : (match_step m st.1 p).2 = (p.1, none) := by
      simp [match_step, hmw]
    rw [h1, h2]
    refine ⟨hss, hdc, ?_, ?_⟩
    · intro e he a ha
      rcases List.mem_append.mp he with he | he
      · exact hent e he a ha
      · rw [List.mem_singleton] at he
        rw [he] at ha
        exact absurd ha (by simp)
    · intro k l h1' h2' a b hkl hk hl
      by_cases hlen : l < st.2.length
      · rw [List.getElem?_append_left hlen] at hl
        rw [List.getElem?_append_left (by omega)] at hk
        exact hpair k l h1' h2' a b hkl hk hl
      · have hl2 : l = st.2.length := by
          by_contra hne
          rw [List.getElem?_eq_none
            (by rw [List.length_append, List.length_singleton]; omega)] at hl
          exact absurd hl (by simp)
        subst hl2
        rw [List.getElem?_concat_length] at hl
        simp at hl
  | some idx =>
    have h1 : (match_step m st.1 p).1 = set_taken st.1 idx := by
      simp [match_step, hmw, set_taken]
    have h2 : (match_step m st.1 p).2 = (p.1, some idx) := by
      simp [match_step, hmw]
    rw [h1, h2]
    rcases matchWidths_some st.1 _ idx hmw with ⟨w, hwmem, hone⟩
    have hwlt : w < 32 - m := (mem_range'_lt hwmem).2
    have hprops := match_one_some st.1 (2 ^ w - 2) idx hone
    have hidxs : idx < st.1.length := hprops.1
    have hidxt : idx < t.length := by
      rw [← hss.1]
      exact hidxs
    have hcwf : ChildrenWF st.1 := ChildrenWF_of_sameStruct hss hwf.1
    have hml : (getN t idx).info.subnet_mask_len ≤ 30 :=
      selected_masklen_le t m hwf st.1 hss hdc w idx hwlt hone
    have hss2 : sameStruct (set_taken st.1 idx) t :=
      sameStruct_trans (sameStruct_setTakenGo st.1.length st.1 idx) hss
    refine ⟨hss2, DownClosed_set_taken st.1 idx hcwf hidxs hdc, ?_, ?_⟩
    · intro e he a ha
      rcases List.mem_append.mp he with he | he
      · have hold := hent e he a ha
        exact ⟨hold.1, fun x hx => taken_setTakenGo_mono _ _ _ x (hold.2.1 x hx), hold.2.2⟩
      · rw [List.mem_singleton] at he
        rw [he] at ha
        have haidx : a = idx := (Option.some.inj ha).symm
        subst haidx
        refine ⟨hidxt, ?_, hml⟩
        intro x hx
        have hx2 : x ∈ reachSet st.1.length st.1 a := by
          rw [hss.1, reachSet_congr t.length st.1 t a hss]
          exact hx
        exact setTakenGo_taken_of_reach st.1.length st.1 a x hcwf hidxs hx2
    · intro k l h1' h2' a b hkl hk hl
      by_cases hlen : l < st.2.length
      · rw [List.getElem?_append_left hlen] at hl
        rw [List.getElem?_append_left (by omega)] at hk
        exact hpair k l h1' h2' a b hkl hk hl
      · have hl2 : l = st.2.length := by
          by_contra hne
          rw [List.getElem?_eq_none
            (by rw [List.length_append, List.length_singleton]; omega)] at hl
          exact absurd hl (by simp)
        subst hl2
        rw [List.getElem?_concat_length] at hl
        have hlp := Option.some.inj hl
        have hbidx : b = idx := by
          have hsnd := congrArg Prod.snd hlp
          exact (Option.some.inj hsnd).symm
        subst hbidx
        have hk2 : k < st.2.length := by omega
        rw [List.getElem?_append_left hk2] at hk
        intro hmem
        have hold := hent (h1', some a) (List.getElem?_mem hk) a rfl
        have htk := hold.2.1 b hmem
        rw [hprops.2.1] at htk
        exact absurd htk (by simp)

theorem match_subnets_MatchInv (t : List Node) (m : Nat) (hwf : TreeWF m t)
    (ps : List (Nat × Nat)) :
    MatchInv t (match_subnets m ps t) := by
  have key : ∀ (ps : List (Nat × Nat)) (st : List Node × List (Nat × Option Nat)),
      MatchInv t st →
      MatchInv t (ps.foldl
        (fun st p =>
          let r := match_step m st.1 p
          (r.1, st.2 ++ [r.2])) st) := by
    intro ps
    induction ps with
    | nil => intro st h; exact h
    | cons p ps ih =>
      intro st h
      simp only [List.foldl_cons]
      exact ih _ (MatchInv_step t m hwf st h p)
  exact key ps (t, []) (MatchInv_init t m hwf)

/-- C1, counterexample: from `10.0.0.0/27` with requirements
`[14, 6, 6, 2]`, the matcher claims `10.0.0.0/28`, then `10.0.0.16/29`
and `10.0.0.24/29`, and finally — all width-2 and width-3 subnets being
claimed — matches the 2-host requirement to their *ancestor*
`10.0.0.16/28`, which overlaps both /29 matches: the matched subnets are
neither pairwise non-overlapping nor ancestor-free. -/
theorem overlap_matched_cex :
    matchedPairwiseOk (runAlloc 167772160 27 [14, 6, 6, 2]) = false := by
  decide

/-- C1 (amended): within one run no subnet is matched twice and no later
match lands anywhere inside an earlier match's subtree (claiming
propagates to all descendants, and the matcher only selects unclaimed
nodes); the invariant fails only in the other direction, because
claiming never propagates upward: a later requirement may match a still
unclaimed *ancestor* of an earlier match, so the matched address ranges
need not be pairwise disjoint. -/
theorem later_match_not_in_earlier_subtree (ip m : Nat) (hr : List Nat)
    (k l h1 h2 a b : Nat) (hkl : k < l)
    (hk : (runAlloc ip m hr).matched[k]? = some (h1, some a))
    (hl : (runAlloc ip m hr).matched[l]? = some (h2, some b)) :
    b ∉ subtreeReach (runAlloc ip m hr).subnets a := by
  have hinv := match_subnets_MatchInv _ _
    (build_TreeWF ip (preHandle m (sortedHosts hr)))
    ((sortedHosts hr).zip (sizedBits (sortedHosts hr)))
  have hnot := hinv.2.2.2 k l h1 h2 a b hkl hk hl
  intro hmem
  apply hnot
  have hsub : (runAlloc ip m hr).subnets =
      (match_subnets (preHandle m (sortedHosts hr))
        ((sortedHosts hr).zip (sizedBits (sortedHosts hr)))
        (find_children (solveStep solveFuel ip (preHandle m (sortedHosts hr)) ROOT []))).1 := rfl
  unfold subtreeReach at hmem
  rw [hsub, hinv.1.1, reachSet_congr _ _ _ a hinv.1] at hmem
  exact hmem

/-- C1, witness: in the run `10.0.0.0/28` with requirements `[6, 2]`,
the second match (index 8, `10.0.0.8/30`) does not lie in the subtree of
the first match (index 0, `10.0.0.0/29`). -/
theorem later_match_not_in_earlier_subtree_witness :
    8 ∉ subtreeReach (runAlloc 167772160 28 [6, 2]).subnets 0 :=
  later_match_not_in_earlier_subtree 167772160 28 [6, 2] 0 1 6 2 0 8
    (by decide) (by decide) (by decide)

/-- C9: in every run, every matched subnet has mask length at most 30 —
no /31 tree node is ever selected.  (Not because /31 nodes have zero
usable hosts — they cache 2 — but because a /31's /30 parent has the
same usable-host count 2, appears earlier in scan order, and cannot be
claimed while its child is unclaimed.) -/
theorem no_slash31_matched (ip m : Nat) (hr : List Nat) (e : Nat × Option Nat)
    (he : e ∈ (runAlloc ip m hr).matched) (idx : Nat) (hidx : e.2 = some idx) :
    (getN (runAlloc ip m hr).subnets idx).info.subnet_mask_len ≤ 30 := by
  have hinv := match_subnets_MatchInv _ _
    (build_TreeWF ip (preHandle m (sortedHosts hr)))
    ((sortedHosts hr).zip (sizedBits (sortedHosts hr)))
  have hfact := hinv.2.2.1 e he idx hidx
  have hinfo := (hinv.1.2 idx).2.1
  rw [show (getN (runAlloc ip m hr).subnets idx).info =
      (getN (find_children (solveStep solveFuel ip (preHandle m (sortedHosts hr)) ROOT []))
        idx).info from hinfo]
  exact hfact.2.2

/-- C9, witness: in the run `10.0.0.64/28` with requirements `[2, 2]`,
the first matched subnet sits at mask length ≤ 30 (it is the /30 at
index 1, not either of its /31 children). -/
theorem no_slash31_matched_witness :
    (getN (runAlloc 167772224 28 [2, 2]).subnets 1).info.subnet_mask_len ≤ 30 :=
  no_slash31_matched 167772224 28 [2, 2] (2, some 1) (by decide) 1 rfl
